import Mathlib

/-!
Verification of the stockpile lookup engine against its specification.

The Go sources are shallowly embedded: Go byte strings become `List Nat`
(one entry per byte), Go `uint32` arithmetic is `Nat` arithmetic with an
explicit `% 2^32` where truncation can occur, Go `int` values are modelled
as unbounded naturals (claims only quantify over positive shard counts),
and fallible operations return `Option` or `Except`.  Run-time panics
(such as a modulus of zero after a `uint32` conversion) are modelled as
`Option.none`.  I/O is abstracted by passing the relevant file or object
contents as explicit parameters.
-/

namespace Stockpile

/-- Go byte strings, one `Nat` per byte. -/
abbrev Bytes := List Nat

/-- Go's built-in string comparison `a <= b`: byte-wise lexicographic,
with a proper prefix ordered before its extensions. -/
def lexLe : Bytes → Bytes → Bool
  | [], _ => true
  | _ :: _, [] => false
  | a :: as, b :: bs => if a < b then true else if b < a then false else lexLe as bs

theorem lexLe_refl (a : Bytes) : lexLe a a = true := by
  induction a with
  | nil => rfl
  | cons x xs ih => simp [lexLe, ih]

theorem lexLe_trans {a b c : Bytes} (h1 : lexLe a b = true) (h2 : lexLe b c = true) :
    lexLe a c = true := by
  induction a generalizing b c with
  | nil => rfl
  | cons x xs ih =>
    cases b with
    | nil => simp [lexLe] at h1
    | cons y ys =>
      cases c with
      | nil => simp [lexLe] at h2
      | cons z zs =>
        simp only [lexLe] at h1 h2 ⊢
        rcases Nat.lt_trichotomy x y with hxy | hxy | hxy
        · rcases Nat.lt_trichotomy y z with hyz | hyz | hyz
          · simp [Nat.lt_trans hxy hyz]
          · subst hyz; simp [hxy]
          · simp [hyz, Nat.lt_asymm hyz] at h2
        · subst hxy
          rcases Nat.lt_trichotomy x z with hyz | hyz | hyz
          · simp [hyz]
          · subst hyz
            simp [Nat.lt_irrefl] at h1 h2 ⊢
            exact ih h1 h2
          · simp [hyz, Nat.lt_asymm hyz] at h2
        · simp [hxy, Nat.lt_asymm hxy] at h1

/-- `bytes.IndexByte`: index of the first occurrence of byte `b`, if any. -/
def indexByte (b : Nat) : Bytes → Option Nat
  | [] => none
  | c :: rest => if c = b then some 0 else (indexByte b rest).map (· + 1)

/-- `bytes.Index`: index of the first occurrence of the substring `pat`. -/
def bytesIndex (pat : Bytes) : Bytes → Option Nat
  | [] => if pat = [] then some 0 else none
  | s :: rest =>
    if pat.isPrefixOf (s :: rest) then some 0
    else (bytesIndex pat rest).map (· + 1)

theorem indexByte_lt_length {b : Nat} {s : Bytes} {i : Nat} (h : indexByte b s = some i) :
    i < s.length := by
  induction s generalizing i with
  | nil => simp [indexByte] at h
  | cons c rest ih =>
    simp only [indexByte] at h
    split at h
    · simp at h; simp [List.length]; omega
    · cases hr : indexByte b rest with
      | none => simp [hr] at h
      | some j =>
        simp [hr] at h
        have := ih hr
        simp [List.length]
        omega

/-- The `search` package's `splitLines`: split on newline bytes, dropping
every empty line. -/
def splitLines : Bytes → List Bytes
  | [] => []
  | c :: rest =>
    match indexByte 10 (c :: rest) with
    | none => [c :: rest]
    | some idx =>
      let line := (c :: rest).take idx
      let next := (c :: rest).drop (idx + 1)
      if line.isEmpty then splitLines next else line :: splitLines next
  termination_by s => s.length
  decreasing_by
    all_goals
      simp only [List.length_drop, List.length_cons]
      omega

/-- The byte string `"fen":"` searched for by `extractFEN`. -/
def fenPat : Bytes := [34, 102, 101, 110, 34, 58, 34]

/-- The `search` package's `extractFEN`: the bytes between the first
occurrence of `"fen":"` and the following double quote, or empty. -/
def searchExtractFEN (line : Bytes) : Bytes :=
  match bytesIndex fenPat line with
  | none => []
  | some idx =>
    let start := idx + fenPat.length
    match indexByte 34 (line.drop start) with
    | none => []
    | some e => (line.drop start).take e

/-- The builder's `extractFEN` (`internal/builder/builder.go`), textually the
same algorithm as the search package's. -/
def builderExtractFEN (line : Bytes) : Bytes :=
  match bytesIndex fenPat line with
  | none => []
  | some idx =>
    let start := idx + fenPat.length
    match indexByte 34 (line.drop start) with
    | none => []
    | some e => (line.drop start).take e

/-- Go's `sort.Search` loop: binary search for the least index in `[i, j)`
satisfying `f`, assuming `f` is monotone. -/
def sortSearchLoop (f : Nat → Bool) (i j : Nat) : Nat :=
  if h : i < j then
    if f ((i + j) / 2) then sortSearchLoop f i ((i + j) / 2)
    else sortSearchLoop f ((i + j) / 2 + 1) j
  else i
  termination_by j - i
  decreasing_by
    · omega
    · omega

/-- Go's `sort.Search n f`. -/
def goSortSearch (n : Nat) (f : Nat → Bool) : Nat := sortSearchLoop f 0 n

/-- Result of `search.Search`: not found, a JSON parse failure on the matched
line, or the decoded record. -/
inductive SearchOutcome (α : Type) where
  | notFound : SearchOutcome α
  | parseError : SearchOutcome α
  | found : α → SearchOutcome α
  deriving DecidableEq, Repr

/-- `search.Search`, with `encoding/json.Unmarshal` abstracted as the
`parse` parameter (it is Go standard library code): split into non-empty
lines, binary search for the least line whose extracted fingerprint is
`>=` the target, then check for an exact match and parse only that line. -/
def search {α : Type} (parse : Bytes → Option α) (data target : Bytes) : SearchOutcome α :=
  let lines := splitLines data
  if lines.isEmpty then .notFound
  else
    let idx := goSortSearch lines.length
      (fun i => lexLe target (searchExtractFEN (lines.getD i [])))
    if lines.length ≤ idx then .notFound
    else if searchExtractFEN (lines.getD idx []) ≠ target then .notFound
    else
      match parse (lines.getD idx []) with
      | none => .parseError
      | some r => .found r

/-- Index of the first element satisfying `p`, by linear scan. -/
def firstIdx {α : Type} (p : α → Bool) : List α → Option Nat
  | [] => none
  | x :: xs => if p x then some 0 else (firstIdx p xs).map (· + 1)

/-- The specification's description of `Search`: drop empty lines, take the
smallest index whose extracted fingerprint is `>=` the target, return
not-found when there is none or the match is not exact, otherwise parse
exactly the matched line. -/
def specSearch {α : Type} (parse : Bytes → Option α) (data target : Bytes) : SearchOutcome α :=
  let lines := splitLines data
  match firstIdx (fun l => lexLe target (searchExtractFEN l)) lines with
  | none => .notFound
  | some i =>
    if searchExtractFEN (lines.getD i []) = target then
      match parse (lines.getD i []) with
      | none => .parseError
      | some r => .found r
    else .notFound

theorem getD_eq_getElem_of_lt {α : Type} (l : List α) (d : α) {i : Nat}
    (h : i < l.length) : l.getD i d = l[i] := by
  simp [List.getD_eq_getElem?_getD, List.getElem?_eq_getElem h]

theorem sortSearchLoop_spec (f : Nat → Bool) (n : Nat)
    (hmono : ∀ a b, a ≤ b → b < n → f a = true → f b = true) :
    ∀ d i j, j - i = d → i ≤ j → j ≤ n →
      (∀ k, k < i → f k = false) → (∀ k, j ≤ k → k < n → f k = true) →
      i ≤ sortSearchLoop f i j ∧ sortSearchLoop f i j ≤ j ∧
      (∀ k, k < sortSearchLoop f i j → f k = false) ∧
      (∀ k, sortSearchLoop f i j ≤ k → k < n → f k = true) := by
  intro d
  induction d using Nat.strong_induction_on with
  | _ d ih =>
    intro i j hd hij hjn h1 h2
    rw [sortSearchLoop.eq_def]
    split
    case isTrue hlt =>
      have hm1 : i ≤ (i + j) / 2 := by omega
      have hm2 : (i + j) / 2 < j := by omega
      split
      case isTrue hf =>
        have hrec := ih ((i + j) / 2 - i) (by omega) i ((i + j) / 2) rfl hm1 (by omega) h1
          (fun k hk1 hk2 => hmono ((i + j) / 2) k hk1 hk2 hf)
        exact ⟨hrec.1, Nat.le_trans hrec.2.1 (Nat.le_of_lt hm2), hrec.2.2⟩
      case isFalse hf =>
        have h1' : ∀ k, k < (i + j) / 2 + 1 → f k = false := by
          intro k hk
          by_cases hki : k < i
          · exact h1 k hki
          · cases hfk : f k with
            | false => rfl
            | true =>
              exact absurd (hmono k ((i + j) / 2) (by omega) (by omega) hfk)
                (by simpa using hf)
        have hrec := ih (j - ((i + j) / 2 + 1)) (by omega) ((i + j) / 2 + 1) j rfl
          (by omega) hjn h1' h2
        exact ⟨Nat.le_trans (by omega) hrec.1, hrec.2.1, hrec.2.2⟩
    case isFalse hge =>
      have hij' : i = j := by omega
      exact ⟨Nat.le_refl i, Nat.le_of_eq hij', h1, fun k hk1 hk2 => h2 k (hij' ▸ hk1) hk2⟩

theorem goSortSearch_spec (f : Nat → Bool) (n : Nat)
    (hmono : ∀ a b, a ≤ b → b < n → f a = true → f b = true) :
    goSortSearch n f ≤ n ∧
    (∀ k, k < goSortSearch n f → f k = false) ∧
    (∀ k, goSortSearch n f ≤ k → k < n → f k = true) := by
  have h := sortSearchLoop_spec f n hmono n 0 n rfl (Nat.zero_le n) (Nat.le_refl n)
    (fun k hk => absurd hk (Nat.not_lt_zero k)) (fun k hk1 hk2 => absurd hk1 (by omega))
  exact ⟨h.2.1, h.2.2⟩

theorem firstIdx_eq_some_of {α : Type} (p : α → Bool) (l : List α) (d : α) (i : Nat)
    (h1 : i < l.length) (h2 : p (l.getD i d) = true)
    (h3 : ∀ k, k < i → p (l.getD k d) = false) : firstIdx p l = some i := by
  induction l generalizing i with
  | nil => simp at h1
  | cons x xs ih =>
    cases i with
    | zero =>
      simp [List.getD] at h2
      simp [firstIdx, h2]
    | succ j =>
      have hx : p x = false := by
        have := h3 0 (Nat.succ_pos j)
        simpa [List.getD] using this
      simp only [firstIdx, hx]
      have := ih j (by simpa using h1) (by simpa [List.getD] using h2)
        (fun k hk => by simpa [List.getD] using h3 (k + 1) (by omega))
      simp [this]

theorem firstIdx_eq_none_of {α : Type} (p : α → Bool) (l : List α) (d : α)
    (h : ∀ i, i < l.length → p (l.getD i d) = false) : firstIdx p l = none := by
  induction l with
  | nil => rfl
  | cons x xs ih =>
    have hx : p x = false := by simpa [List.getD] using h 0 (by simp)
    simp only [firstIdx, hx]
    have := ih (fun i hi => by simpa [List.getD] using h (i + 1) (by simpa using hi))
    simp [this]

/-- C1. For a shard whose non-empty newline-separated lines are sorted
ascending byte-wise by extracted fingerprint, `Search` drops empty lines,
binary-searches for the smallest line index whose extracted fingerprint is
`>=` the target, returns not-found when that index is past the end or the
fingerprint there is not exactly the target, and otherwise JSON-parses only
that matched line and returns the decoded record: it agrees with the linear
specification `specSearch` for every target and every JSON decoder. -/
theorem C1_search_spec {α : Type} (parse : Bytes → Option α) (data target : Bytes)
    (hsorted : (splitLines data).Chain'
      (fun a b => lexLe (searchExtractFEN a) (searchExtractFEN b) = true)) :
    search parse data target = specSearch parse data target := by
  have htrans : Transitive (fun a b : Bytes =>
      lexLe (searchExtractFEN a) (searchExtractFEN b) = true) :=
    fun _ _ _ hab hbc => lexLe_trans hab hbc
  have : IsTrans Bytes (fun a b =>
      lexLe (searchExtractFEN a) (searchExtractFEN b) = true) := ⟨htrans⟩
  have hpair := (List.chain'_iff_pairwise).mp hsorted
  rw [List.pairwise_iff_getElem] at hpair
  set lines := splitLines data with hlines
  set n := lines.length with hn
  set f : Nat → Bool := fun i => lexLe target (searchExtractFEN (lines.getD i [])) with hf
  have hmono : ∀ a b, a ≤ b → b < n → f a = true → f b = true := by
    intro a b hab hbn hfa
    rcases Nat.eq_or_lt_of_le hab with h | h
    · exact h ▸ hfa
    · have hrel := hpair a b (by omega) (by omega) h
      have ha := getD_eq_getElem_of_lt lines ([] : Bytes) (show a < lines.length by omega)
      have hb := getD_eq_getElem_of_lt lines ([] : Bytes) (show b < lines.length by omega)
      simp only [hf, ha, hb] at hfa ⊢
      exact lexLe_trans hfa hrel
  obtain ⟨hrn, hbelow, habove⟩ := goSortSearch_spec f n hmono
  set r := goSortSearch n f with hr
  by_cases hcase : r < n
  · have hfr : f r = true := habove r (Nat.le_refl r) hcase
    have hfirst : firstIdx (fun l => lexLe target (searchExtractFEN l)) lines = some r :=
      firstIdx_eq_some_of _ lines [] r (hn ▸ hcase) hfr hbelow
    have hlen0 : 0 < lines.length := hn ▸ Nat.lt_of_le_of_lt (Nat.zero_le r) hcase
    have hne : ¬ (lines.isEmpty = true) := by
      intro h
      rw [List.isEmpty_iff_length_eq_zero] at h
      omega
    simp only [search, specSearch, ← hlines, ← hn, ← hf, ← hr, hfirst, if_neg hne,
      if_neg (Nat.not_le_of_lt hcase)]
    by_cases heq : searchExtractFEN (lines.getD r []) = target
    · simp [heq]
    · simp [heq]
  · have hreq : r = n := by omega
    have hfirst : firstIdx (fun l => lexLe target (searchExtractFEN l)) lines = none :=
      firstIdx_eq_none_of _ lines [] (fun i hi => hbelow i (by omega))
    simp only [search, specSearch, ← hlines, ← hn, ← hf, ← hr, hfirst]
    by_cases hne : lines.isEmpty = true
    · simp [hne]
    · simp [hne, hreq]

/-- Witness for C1 at a concrete sorted two-line shard. -/
theorem C1_search_spec_witness :
    ((splitLines ([34, 102, 101, 110, 34, 58, 34, 97, 34, 10,
        34, 102, 101, 110, 34, 58, 34, 98, 34] : Bytes)).Chain'
      (fun a b => lexLe (searchExtractFEN a) (searchExtractFEN b) = true)) ∧
    search (fun l => some l) ([34, 102, 101, 110, 34, 58, 34, 97, 34, 10,
        34, 102, 101, 110, 34, 58, 34, 98, 34] : Bytes) [98] =
      specSearch (fun l => some l) ([34, 102, 101, 110, 34, 58, 34, 97, 34, 10,
        34, 102, 101, 110, 34, 58, 34, 98, 34] : Bytes) [98] :=
  have hs : (splitLines ([34, 102, 101, 110, 34, 58, 34, 97, 34, 10,
      34, 102, 101, 110, 34, 58, 34, 98, 34] : Bytes)).Chain'
      (fun a b => lexLe (searchExtractFEN a) (searchExtractFEN b) = true) := by
    simp [splitLines, indexByte, searchExtractFEN, bytesIndex, fenPat,
      List.isPrefixOf, lexLe]
  ⟨hs, C1_search_spec (fun l => some l) _ [98] hs⟩

/-- The specification's description of fingerprint extraction: locate the
first occurrence of the substring `"fen":"`, read bytes until the next
double quote, and yield the empty string when either is absent. -/
def specFenField (line : Bytes) : Bytes :=
  match (List.range line.length).find? (fun i => fenPat.isPrefixOf (line.drop i)) with
  | none => []
  | some i =>
    let after := line.drop (i + fenPat.length)
    if after.any (fun c => c = 34) then after.takeWhile (fun c => c ≠ 34) else []

theorem bytesIndex_eq_find (pat : Bytes) (hp : pat ≠ []) (l : Bytes) :
    bytesIndex pat l = (List.range l.length).find? (fun i => pat.isPrefixOf (l.drop i)) := by
  induction l with
  | nil =>
    simp [bytesIndex, hp]
  | cons c rest ih =>
    rw [List.length_cons, List.range_succ_eq_map, List.find?_cons]
    by_cases h : pat.isPrefixOf (c :: rest) = true
    · simp [bytesIndex, h]
    · have h0 : pat.isPrefixOf (c :: rest) = false := by
        cases hb : pat.isPrefixOf (c :: rest)
        · rfl
        · exact absurd hb h
      simp only [bytesIndex, h0, List.drop_zero, Bool.false_eq_true, if_false]
      rw [List.find?_map]
      have harg : ((fun i => List.isPrefixOf pat (List.drop i (c :: rest))) ∘ Nat.succ) =
          fun i => List.isPrefixOf pat (List.drop i rest) :=
        funext fun i => by simp [Function.comp, List.drop_succ_cons]
      rw [harg, ← ih]

theorem indexByte_eq_none_iff (b : Nat) (l : Bytes) :
    indexByte b l = none ↔ ∀ c ∈ l, c ≠ b := by
  induction l with
  | nil => simp [indexByte]
  | cons c rest ih =>
    simp only [indexByte]
    by_cases hc : c = b
    · simp [hc]
    · simp only [hc, if_false, List.mem_cons]
      constructor
      · intro h x hx
        have hr : indexByte b rest = none := by
          cases hr : indexByte b rest with
          | none => rfl
          | some j => simp [hr] at h
        rcases hx with hx | hx
        · subst hx; exact hc
        · exact ih.mp hr x hx
      · intro h
        have : indexByte b rest = none := ih.mpr (fun x hx => h x (Or.inr hx))
        simp [this]

theorem indexByte_mem {b : Nat} {l : Bytes} {e : Nat} (h : indexByte b l = some e) :
    b ∈ l := by
  induction l generalizing e with
  | nil => simp [indexByte] at h
  | cons c rest ih =>
    simp only [indexByte] at h
    by_cases hc : c = b
    · simp [hc]
    · simp only [hc, if_false] at h
      cases hr : indexByte b rest with
      | none => simp [hr] at h
      | some j => exact List.mem_cons_of_mem c (ih hr)

theorem indexByte_take (b : Nat) : ∀ (l : Bytes) (e : Nat), indexByte b l = some e →
    l.take e = l.takeWhile (fun c => c ≠ b) := by
  intro l
  induction l with
  | nil => intro e h; simp [indexByte] at h
  | cons c rest ih =>
    intro e h
    simp only [indexByte] at h
    by_cases hc : c = b
    · simp only [hc, if_pos rfl] at h
      have he : e = 0 := by simpa using h.symm
      subst he
      simp [List.takeWhile_cons, hc]
    · simp only [hc, if_false] at h
      cases hr : indexByte b rest with
      | none => simp [hr] at h
      | some j =>
        simp only [hr, Option.map_some] at h
        have he : e = j + 1 := by simpa using h.symm
        subst he
        simp [List.takeWhile_cons, hc, ih j hr]

/-- C9. The build pipeline's `extractFEN` and the read path's `extractFEN`
are the same function, and both return the bytes between the first
occurrence of `"fen":"` and the next double quote, or the empty string
when the marker or the closing quote is absent. -/
theorem C9_extractFEN_unified (line : Bytes) :
    builderExtractFEN line = searchExtractFEN line ∧
    searchExtractFEN line = specFenField line := by
  refine ⟨rfl, ?_⟩
  unfold searchExtractFEN specFenField
  rw [← bytesIndex_eq_find fenPat (by decide) line]
  cases h : bytesIndex fenPat line with
  | none => rfl
  | some idx =>
    simp only []
    cases h2 : indexByte 34 (line.drop (idx + fenPat.length)) with
    | none =>
      have hnone : ∀ c ∈ line.drop (idx + fenPat.length), c ≠ 34 :=
        (indexByte_eq_none_iff 34 _).mp h2
      have : (line.drop (idx + fenPat.length)).any (fun c => decide (c = 34)) = false := by
        rw [List.any_eq_false]
        intro x hx
        simp [hnone x hx]
      simp [this]
    | some e =>
      have hmem : (34 : Nat) ∈ line.drop (idx + fenPat.length) := indexByte_mem h2
      have hany : (line.drop (idx + fenPat.length)).any (fun c => decide (c = 34)) = true :=
        List.any_eq_true.mpr ⟨34, hmem, by simp⟩
      simp [hany, indexByte_take 34 _ e h2]

/-- Second-byte acceptance range for a three-byte UTF-8 sequence
(Go's `utf8` tables: E0 narrows the low end, ED excludes surrogates). -/
def utf8Second3 (b c : Nat) : Bool :=
  if b = 224 then decide (160 ≤ c ∧ c ≤ 191)
  else if b = 237 then decide (128 ≤ c ∧ c ≤ 159)
  else decide (128 ≤ c ∧ c ≤ 191)

/-- Second-byte acceptance range for a four-byte UTF-8 sequence
(F0 excludes overlongs, F4 caps at U+10FFFF). -/
def utf8Second4 (b c : Nat) : Bool :=
  if b = 240 then decide (144 ≤ c ∧ c ≤ 191)
  else if b = 244 then decide (128 ≤ c ∧ c ≤ 143)
  else decide (128 ≤ c ∧ c ≤ 191)

/-- Decode one rune as Go's `range` over a string does: returns the rune,
the bytes consumed and the remaining bytes.  Invalid sequences yield
U+FFFD and consume a single byte. -/
def utf8DecodeNext (b : Nat) (rest : Bytes) : Nat × Bytes × Bytes :=
  if b < 128 then (b, [b], rest)
  else if b < 194 then (65533, [b], rest)
  else if b < 224 then
    match rest with
    | c :: rest2 =>
      if 128 ≤ c ∧ c ≤ 191 then ((b - 192) * 64 + (c - 128), [b, c], rest2)
      else (65533, [b], c :: rest2)
    | [] => (65533, [b], [])
  else if b < 240 then
    match rest with
    | c :: d :: rest3 =>
      if utf8Second3 b c = true ∧ 128 ≤ d ∧ d ≤ 191 then
        ((b - 224) * 4096 + (c - 128) * 64 + (d - 128), [b, c, d], rest3)
      else (65533, [b], c :: d :: rest3)
    | other => (65533, [b], other)
  else if b < 245 then
    match rest with
    | c :: d :: e :: rest4 =>
      if utf8Second4 b c = true ∧ 128 ≤ d ∧ d ≤ 191 ∧ 128 ≤ e ∧ e ≤ 191 then
        ((b - 240) * 262144 + (c - 128) * 4096 + (d - 128) * 64 + (e - 128),
          [b, c, d, e], rest4)
      else (65533, [b], c :: d :: e :: rest4)
    | other => (65533, [b], other)
  else (65533, [b], rest)

theorem utf8DecodeNext_rest_le (b : Nat) (rest : Bytes) :
    (utf8DecodeNext b rest).2.2.length ≤ rest.length := by
  unfold utf8DecodeNext
  repeat' split
  all_goals simp [List.length]
  all_goals omega

/-- Decode a byte string to its rune sequence as Go's `range` does. -/
def utf8Decode : Bytes → List Nat
  | [] => []
  | b :: rest =>
    (utf8DecodeNext b rest).1 :: utf8Decode (utf8DecodeNext b rest).2.2
  termination_by s => s.length
  decreasing_by
    simp only [List.length_cons]
    exact Nat.lt_succ_of_le (utf8DecodeNext_rest_le _ _)

/-- Go's `unicode.IsSpace`. -/
def isSpaceRune (r : Nat) : Bool :=
  decide (r = 32 ∨ (9 ≤ r ∧ r ≤ 13) ∨ r = 133 ∨ r = 160 ∨ r = 5760 ∨
    (8192 ≤ r ∧ r ≤ 8202) ∨ r = 8232 ∨ r = 8233 ∨ r = 8239 ∨ r = 8287 ∨ r = 12288)

/-- Consume one maximal run of non-space runes: returns the token's bytes
and the remaining bytes. -/
def takeTokenAux : Bytes → Bytes × Bytes
  | [] => ([], [])
  | b :: rest =>
    if isSpaceRune (utf8DecodeNext b rest).1 then ([], b :: rest)
    else
      ((utf8DecodeNext b rest).2.1 ++ (takeTokenAux (utf8DecodeNext b rest).2.2).1,
        (takeTokenAux (utf8DecodeNext b rest).2.2).2)
  termination_by s => s.length
  decreasing_by
    all_goals
      simp only [List.length_cons]
      exact Nat.lt_succ_of_le (utf8DecodeNext_rest_le _ _)

theorem takeTokenAux_snd_le (s : Bytes) : (takeTokenAux s).2.length ≤ s.length := by
  induction s using takeTokenAux.induct with
  | case1 => simp [takeTokenAux]
  | case2 b rest hsp => simp [takeTokenAux, hsp]
  | case3 b rest hsp ih =>
    have h1 := utf8DecodeNext_rest_le b rest
    simp only [takeTokenAux, hsp, Bool.false_eq_true, if_false, List.length_cons]
    omega

/-- Go's `strings.Fields`: split on maximal runs of Unicode whitespace,
returning the byte content of each token. -/
def fieldsB : Bytes → List Bytes
  | [] => []
  | b :: rest =>
    if isSpaceRune (utf8DecodeNext b rest).1 then fieldsB (utf8DecodeNext b rest).2.2
    else
      ((utf8DecodeNext b rest).2.1 ++ (takeTokenAux (utf8DecodeNext b rest).2.2).1) ::
        fieldsB (takeTokenAux (utf8DecodeNext b rest).2.2).2
  termination_by s => s.length
  decreasing_by
    · simp only [List.length_cons]
      exact Nat.lt_succ_of_le (utf8DecodeNext_rest_le _ _)
    · simp only [List.length_cons]
      exact Nat.lt_succ_of_le
        (Nat.le_trans (takeTokenAux_snd_le _) (utf8DecodeNext_rest_le _ _))

/-- Piece counts per colour (`fen.Material`); kings are not counted. -/
structure Material where
  WhitePawns : Nat := 0
  WhiteKnights : Nat := 0
  WhiteBishops : Nat := 0
  WhiteRooks : Nat := 0
  WhiteQueens : Nat := 0
  BlackPawns : Nat := 0
  BlackKnights : Nat := 0
  BlackBishops : Nat := 0
  BlackRooks : Nat := 0
  BlackQueens : Nat := 0
  deriving DecidableEq, Repr

/-- The rune switch inside `fen.ParseMaterial`: count pieces, ignore kings,
slashes and the digits 1-8, and fail on anything else. -/
def countMaterial : List Nat → Material → Option Material
  | [], m => some m
  | r :: rest, m =>
    if r = 80 then countMaterial rest { m with WhitePawns := m.WhitePawns + 1 }
    else if r = 78 then countMaterial rest { m with WhiteKnights := m.WhiteKnights + 1 }
    else if r = 66 then countMaterial rest { m with WhiteBishops := m.WhiteBishops + 1 }
    else if r = 82 then countMaterial rest { m with WhiteRooks := m.WhiteRooks + 1 }
    else if r = 81 then countMaterial rest { m with WhiteQueens := m.WhiteQueens + 1 }
    else if r = 112 then countMaterial rest { m with BlackPawns := m.BlackPawns + 1 }
    else if r = 110 then countMaterial rest { m with BlackKnights := m.BlackKnights + 1 }
    else if r = 98 then countMaterial rest { m with BlackBishops := m.BlackBishops + 1 }
    else if r = 114 then countMaterial rest { m with BlackRooks := m.BlackRooks + 1 }
    else if r = 113 then countMaterial rest { m with BlackQueens := m.BlackQueens + 1 }
    else if r = 75 ∨ r = 107 then countMaterial rest m
    else if r = 47 ∨ (49 ≤ r ∧ r ≤ 56) then countMaterial rest m
    else none

/-- `fen.ParseMaterial`: split into fields, fail on an empty input, and
count the runes of the first (placement) field. -/
def ParseMaterial (s : Bytes) : Option Material :=
  match fieldsB s with
  | [] => none
  | p0 :: _ => countMaterial (utf8Decode p0) {}

/-- `fen.SideToMove`: the second whitespace field, required to be the byte
string `w` or `b`. -/
def SideToMove (s : Bytes) : Option Bytes :=
  match fieldsB s with
  | _ :: p1 :: _ => if p1 ≠ [119] ∧ p1 ≠ [98] then none else some p1
  | _ => none

/-- Go's `strings.Split` on a single byte separator. -/
def splitOnByte (b : Nat) (s : Bytes) : List Bytes :=
  match h : indexByte b s with
  | none => [s]
  | some i => s.take i :: splitOnByte b (s.drop (i + 1))
  termination_by s.length
  decreasing_by
    have := indexByte_lt_length h
    simp only [List.length_drop]
    omega

/-- Square counting for one rank in `isValidPiecePlacement`: digits 1-8
contribute their value, piece letters one square, anything else fails. -/
def countSquares : List Nat → Option Nat
  | [] => some 0
  | r :: rest =>
    if 49 ≤ r ∧ r ≤ 56 then (countSquares rest).map (· + (r - 48))
    else if r = 80 ∨ r = 78 ∨ r = 66 ∨ r = 82 ∨ r = 81 ∨ r = 75 ∨
        r = 112 ∨ r = 110 ∨ r = 98 ∨ r = 114 ∨ r = 113 ∨ r = 107 then
      (countSquares rest).map (· + 1)
    else none

/-- `fen.isValidPiecePlacement`: eight slash-separated ranks of exactly
eight squares each. -/
def isValidPiecePlacement (placement : Bytes) : Bool :=
  let ranks := splitOnByte 47 placement
  decide (ranks.length = 8) &&
    ranks.all (fun rank => decide (countSquares (utf8Decode rank) = some 8))

/-- `fen.Normalize`: at least four whitespace fields, a valid placement, a
valid side to move, and the first four fields rejoined by single spaces. -/
def Normalize (s : Bytes) : Option Bytes :=
  let parts := fieldsB s
  if parts.length < 4 then none
  else
    match parts with
    | p0 :: p1 :: _ =>
      if isValidPiecePlacement p0 = false then none
      else if p1 ≠ [119] ∧ p1 ≠ [98] then none
      else some (List.intercalate [32] (parts.take 4))
    | _ => none

/-- 32-bit FNV-1a over the raw bytes (offset basis 2166136261,
prime 16777619), with the `uint32` wrap made explicit. -/
def fnv1a32 (s : Bytes) : Nat :=
  s.foldl (fun h b => ((h ^^^ b) * 16777619) % 4294967296) 2166136261

/-- `materialshard.hashFallback`: FNV-1a of the raw input reduced modulo
`uint32(totalShards)`; `none` models the run-time panic when the low 32
bits of the shard count are zero. -/
def hashFallback (s : Bytes) (totalShards : Nat) : Option Nat :=
  let m := totalShards % 4294967296
  if m = 0 then none else some (fnv1a32 s % m)

/-- `materialshard.Strategy.ShardID`: bit-pack clamped piece counts and the
side-to-move bit into a 19-bit key and reduce modulo `uint32(totalShards)`;
a failed material parse falls back to the FNV hash, and a failed
side-to-move parse leaves `side` as the empty string. -/
def materialShardID (s : Bytes) (totalShards : Nat) : Option Nat :=
  match ParseMaterial s with
  | none => hashFallback s totalShards
  | some mat =>
    let side := (SideToMove s).getD []
    let id0 :=
      Nat.min mat.WhiteQueens 7 <<< 0 |||
      Nat.min mat.BlackQueens 7 <<< 3 |||
      Nat.min mat.WhiteRooks 7 <<< 6 |||
      Nat.min mat.BlackRooks 7 <<< 9 |||
      Nat.min (mat.WhiteBishops + mat.WhiteKnights) 7 <<< 12 |||
      Nat.min (mat.BlackBishops + mat.BlackKnights) 7 <<< 15
    let id := if side = [98] then id0 ||| 1 <<< 18 else id0
    let m := totalShards % 4294967296
    if m = 0 then none else some (id % m)

/-- `fnvshard.Strategy.ShardID`: FNV-1a over the normalized fingerprint
(or the raw input when normalization fails) modulo `uint32(totalShards)`. -/
def fnvShardID (s : Bytes) (totalShards : Nat) : Option Nat :=
  let normalized :=
    match Normalize s with
    | some nf => nf
    | none => s
  let m := totalShards % 4294967296
  if m = 0 then none else some (fnv1a32 normalized % m)

/-- The 19-bit key exactly as the specification words it: queens in bits
0-5, rooks in bits 6-11, minor pieces in bits 12-17, side to move in
bit 18, each count clamped at 7. -/
def specMaterialKey (m : Material) (sideB : Nat) : Nat :=
  Nat.min m.WhiteQueens 7 + 8 * Nat.min m.BlackQueens 7 +
  64 * Nat.min m.WhiteRooks 7 + 512 * Nat.min m.BlackRooks 7 +
  4096 * Nat.min (m.WhiteBishops + m.WhiteKnights) 7 +
  32768 * Nat.min (m.BlackBishops + m.BlackKnights) 7 +
  262144 * sideB

/-- The side-to-move bit as the code computes it: 1 exactly when the
side-to-move parse succeeded with `b`. -/
def sideBit (s : Bytes) : Nat := if (SideToMove s).getD [] = [98] then 1 else 0

theorem lor_shiftLeft_eq_add {low v k : Nat} (h : low < 2 ^ k) :
    low ||| v <<< k = low + v * 2 ^ k := by
  rw [Nat.shiftLeft_eq, Nat.mul_comm v (2 ^ k), Nat.lor_comm,
    ← Nat.mul_add_lt_is_or h v, Nat.add_comm]

theorem lor_shiftLeft_eq_add' {low v k c : Nat} (hc : (2 : Nat) ^ k = c) (h : low < c) :
    low ||| v <<< k = low + v * c := by
  subst hc
  exact lor_shiftLeft_eq_add h

theorem material_pack6 {wq bq wr br wm bm : Nat} (h1 : wq ≤ 7) (h2 : bq ≤ 7)
    (h3 : wr ≤ 7) (h4 : br ≤ 7) (h5 : wm ≤ 7) (h6 : bm ≤ 7) :
    wq <<< 0 ||| bq <<< 3 ||| wr <<< 6 ||| br <<< 9 ||| wm <<< 12 ||| bm <<< 15 =
      wq + 8 * bq + 64 * wr + 512 * br + 4096 * wm + 32768 * bm := by
  rw [Nat.shiftLeft_zero]
  rw [lor_shiftLeft_eq_add' (show (2 : Nat) ^ 3 = 8 by norm_num) (show wq < 8 by omega)]
  rw [lor_shiftLeft_eq_add' (show (2 : Nat) ^ 6 = 64 by norm_num)
    (show wq + bq * 8 < 64 by omega)]
  rw [lor_shiftLeft_eq_add' (show (2 : Nat) ^ 9 = 512 by norm_num)
    (show wq + bq * 8 + wr * 64 < 512 by omega)]
  rw [lor_shiftLeft_eq_add' (show (2 : Nat) ^ 12 = 4096 by norm_num)
    (show wq + bq * 8 + wr * 64 + br * 512 < 4096 by omega)]
  rw [lor_shiftLeft_eq_add' (show (2 : Nat) ^ 15 = 32768 by norm_num)
    (show wq + bq * 8 + wr * 64 + br * 512 + wm * 4096 < 32768 by omega)]
  omega

theorem material_pack6_lt {wq bq wr br wm bm : Nat} (h1 : wq ≤ 7) (h2 : bq ≤ 7)
    (h3 : wr ≤ 7) (h4 : br ≤ 7) (h5 : wm ≤ 7) (h6 : bm ≤ 7) :
    wq <<< 0 ||| bq <<< 3 ||| wr <<< 6 ||| br <<< 9 ||| wm <<< 12 ||| bm <<< 15 < 262144 := by
  rw [material_pack6 h1 h2 h3 h4 h5 h6]
  omega

theorem materialShardID_packed (s : Bytes) (N : Nat) (h1 : 0 < N) (h2 : N < 4294967296) :
    (∀ m, ParseMaterial s = some m →
      materialShardID s N = some (specMaterialKey m (sideBit s) % N)) ∧
    (ParseMaterial s = none → materialShardID s N = some (fnv1a32 s % N)) := by
  have hmod : N % 4294967296 = N := Nat.mod_eq_of_lt h2
  have hN0 : ¬ N = 0 := by omega
  constructor
  · intro m hp
    have q1 := Nat.min_le_right m.WhiteQueens 7
    have q2 := Nat.min_le_right m.BlackQueens 7
    have q3 := Nat.min_le_right m.WhiteRooks 7
    have q4 := Nat.min_le_right m.BlackRooks 7
    have q5 := Nat.min_le_right (m.WhiteBishops + m.WhiteKnights) 7
    have q6 := Nat.min_le_right (m.BlackBishops + m.BlackKnights) 7
    have hpack := material_pack6 q1 q2 q3 q4 q5 q6
    have hlt := material_pack6_lt q1 q2 q3 q4 q5 q6
    simp only [materialShardID, hp, hmod, hN0, if_false]
    by_cases hside : (SideToMove s).getD [] = [98]
    · rw [if_pos hside,
        lor_shiftLeft_eq_add' (show (2 : Nat) ^ 18 = 262144 by norm_num) hlt, hpack]
      unfold sideBit
      rw [if_pos hside]
      simp only [specMaterialKey, Nat.one_mul, Nat.mul_one]
    · rw [if_neg hside, hpack]
      unfold sideBit
      rw [if_neg hside]
      simp only [specMaterialKey, Nat.mul_zero, Nat.add_zero]
  · intro hp
    simp only [materialShardID, hashFallback, hp, hmod, hN0, if_false]

/-- C2 (amended): for every input and every shard count `N` with
`0 < N < 2^32`, the material strategy's shard id equals the 19-bit packed
key (queens, rooks, minors clamped at 7, side-to-move bit 18) modulo `N`
when the placement token parses as material, and the 32-bit FNV-1a hash of
the raw input modulo `N` when the parse fails; it never signals an error.
For `N ≥ 2^32` the code reduces modulo the low 32 bits of `N` instead, and
panics when those are zero. -/
theorem C2_materialShardID_spec (s : Bytes) (N : Nat) (h1 : 0 < N) (h2 : N < 4294967296) :
    (∀ m, ParseMaterial s = some m →
      materialShardID s N = some (specMaterialKey m (sideBit s) % N)) ∧
    (ParseMaterial s = none → materialShardID s N = some (fnv1a32 s % N)) :=
  materialShardID_packed s N h1 h2

/-- C2 counterexample: on input `Q w` (placement parses as one white
queen, so the 19-bit key is 1) and shard count `N = 2^32 + 1`, the claim
says the shard id is `1 mod N = 1`, but the code reduces modulo
`uint32(N) = 1` and returns 0. -/
theorem C2_counterexample :
    ParseMaterial [81, 32, 119] = some { WhiteQueens := 1 } ∧
    specMaterialKey { WhiteQueens := 1 } (sideBit [81, 32, 119]) % 4294967297 = 1 ∧
    materialShardID [81, 32, 119] 4294967297 = some 0 := by
  refine ⟨?_, ?_, ?_⟩
  · simp [ParseMaterial, fieldsB, takeTokenAux, utf8DecodeNext, isSpaceRune, utf8Decode,
      countMaterial]
  · simp [specMaterialKey, sideBit, SideToMove, fieldsB, takeTokenAux, utf8DecodeNext,
      isSpaceRune]
  · simp [materialShardID, ParseMaterial, SideToMove, fieldsB, takeTokenAux,
      utf8DecodeNext, isSpaceRune, utf8Decode, countMaterial, specMaterialKey]

/-- Witness for C2 at `Q w` with `N = 32768`. -/
theorem C2_witness :
    ParseMaterial [81, 32, 119] = some { WhiteQueens := 1 } ∧
    materialShardID [81, 32, 119] 32768 =
      some (specMaterialKey { WhiteQueens := 1 } (sideBit [81, 32, 119]) % 32768) := by
  have hp : ParseMaterial [81, 32, 119] = some { WhiteQueens := 1 } := by
    simp [ParseMaterial, fieldsB, takeTokenAux, utf8DecodeNext, isSpaceRune, utf8Decode,
      countMaterial]
  exact ⟨hp,
    (C2_materialShardID_spec [81, 32, 119] 32768 (by norm_num) (by norm_num)).1 _ hp⟩

theorem materialShardID_mod_shape (s : Bytes) (N : Nat) (h2 : ¬ N % 4294967296 = 0) :
    ∃ x, materialShardID s N = some (x % (N % 4294967296)) := by
  cases hp : ParseMaterial s with
  | none =>
    refine ⟨fnv1a32 s, ?_⟩
    simp only [materialShardID, hashFallback, hp]
    rw [if_neg h2]
  | some mat =>
    refine ⟨if (SideToMove s).getD [] = [98] then
        (Nat.min mat.WhiteQueens 7 <<< 0 ||| Nat.min mat.BlackQueens 7 <<< 3 |||
          Nat.min mat.WhiteRooks 7 <<< 6 ||| Nat.min mat.BlackRooks 7 <<< 9 |||
          Nat.min (mat.WhiteBishops + mat.WhiteKnights) 7 <<< 12 |||
          Nat.min (mat.BlackBishops + mat.BlackKnights) 7 <<< 15) ||| 1 <<< 18
      else
        Nat.min mat.WhiteQueens 7 <<< 0 ||| Nat.min mat.BlackQueens 7 <<< 3 |||
        Nat.min mat.WhiteRooks 7 <<< 6 ||| Nat.min mat.BlackRooks 7 <<< 9 |||
        Nat.min (mat.WhiteBishops + mat.WhiteKnights) 7 <<< 12 |||
        Nat.min (mat.BlackBishops + mat.BlackKnights) 7 <<< 15, ?_⟩
    simp only [materialShardID, hp]
    rw [if_neg h2]

theorem fnvShardID_mod_shape (s : Bytes) (N : Nat) (h2 : ¬ N % 4294967296 = 0) :
    ∃ x, fnvShardID s N = some (x % (N % 4294967296)) := by
  refine ⟨fnv1a32 (match Normalize s with | some nf => nf | none => s), ?_⟩
  simp only [fnvShardID]
  rw [if_neg h2]

/-- C3 (amended): for every input and every shard count `N > 0` whose low
32 bits are nonzero, both strategies return a shard id in `[0, N)`.  At
`N = 2^32` itself the code divides by `uint32(N) = 0` and panics instead
of returning an id. -/
theorem C3_shardID_range (s : Bytes) (N : Nat) (h1 : 0 < N) (h2 : N % 4294967296 ≠ 0) :
    (∃ i, materialShardID s N = some i ∧ i < N) ∧
    (∃ i, fnvShardID s N = some i ∧ i < N) := by
  have hle : N % 4294967296 ≤ N := Nat.mod_le N 4294967296
  have hpos : 0 < N % 4294967296 := Nat.pos_of_ne_zero h2
  obtain ⟨x, hx⟩ := materialShardID_mod_shape s N h2
  obtain ⟨y, hy⟩ := fnvShardID_mod_shape s N h2
  exact ⟨⟨_, hx, Nat.lt_of_lt_of_le (Nat.mod_lt x hpos) hle⟩,
    ⟨_, hy, Nat.lt_of_lt_of_le (Nat.mod_lt y hpos) hle⟩⟩

/-- C3 counterexample: at `N = 2^32` both strategies reduce modulo
`uint32(N) = 0`, a run-time panic (modelled as `none`), so no shard id in
`[0, N)` is returned. -/
theorem C3_counterexample :
    materialShardID [81, 32, 119] 4294967296 = none ∧
    fnvShardID [81, 32, 119] 4294967296 = none := by
  constructor
  · cases hp : ParseMaterial [81, 32, 119] with
    | none => simp [materialShardID, hashFallback, hp]
    | some mat => simp [materialShardID, hp]
  · simp [fnvShardID]

/-- Witness for C3 at `Q w` with `N = 32768`. -/
theorem C3_witness :
    (0 < 32768 ∧ 32768 % 4294967296 ≠ 0) ∧
    ((∃ i, materialShardID [81, 32, 119] 32768 = some i ∧ i < 32768) ∧
     (∃ i, fnvShardID [81, 32, 119] 32768 = some i ∧ i < 32768)) :=
  ⟨⟨by norm_num, by norm_num⟩,
    C3_shardID_range [81, 32, 119] 32768 (by norm_num) (by norm_num)⟩

theorem countMaterial_total (runes : List Nat)
    (h : ∀ r ∈ runes, r = 47 ∨ (49 ≤ r ∧ r ≤ 56) ∨ r = 80 ∨ r = 78 ∨ r = 66 ∨ r = 82 ∨
      r = 81 ∨ r = 75 ∨ r = 112 ∨ r = 110 ∨ r = 98 ∨ r = 114 ∨ r = 113 ∨ r = 107) :
    ∀ m0, ∃ m, countMaterial runes m0 = some m := by
  induction runes with
  | nil => exact fun m0 => ⟨m0, rfl⟩
  | cons r rest ih =>
    intro m0
    have hr := h r (List.mem_cons_self r rest)
    have hrest := ih (fun x hx => h x (List.mem_cons_of_mem r hx))
    rcases hr with hr | hr | hr | hr | hr | hr | hr | hr | hr | hr | hr | hr | hr | hr
    · subst hr; simpa [countMaterial] using hrest _
    · obtain ⟨hlo, hhi⟩ := hr
      interval_cases r <;> simpa [countMaterial] using hrest _
    all_goals (subst hr; simpa [countMaterial] using hrest _)

/-- C10 (amended): when the first whitespace token is made only of piece
letters, the digits 1-8 and slashes, and the second token is missing or is
neither `w` nor `b`, the material strategy takes the material branch (no
hash fallback, no error), the ignored side-to-move failure leaves the side
bit at 0, and the shard id is the key modulo `N` (for `0 < N < 2^32`). -/
theorem C10_material_side_ignored (s : Bytes) (t0 : Bytes) (rest : List Bytes)
    (hf : fieldsB s = t0 :: rest)
    (hval : ∀ r ∈ utf8Decode t0, r = 47 ∨ (49 ≤ r ∧ r ≤ 56) ∨ r = 80 ∨ r = 78 ∨ r = 66 ∨
      r = 82 ∨ r = 81 ∨ r = 75 ∨ r = 112 ∨ r = 110 ∨ r = 98 ∨ r = 114 ∨ r = 113 ∨ r = 107)
    (hside : rest = [] ∨ ∃ t1 rest2, rest = t1 :: rest2 ∧ t1 ≠ [119] ∧ t1 ≠ [98])
    (N : Nat) (hN1 : 0 < N) (hN2 : N < 4294967296) :
    ∃ m, ParseMaterial s = some m ∧
      materialShardID s N = some (specMaterialKey m 0 % N) := by
  obtain ⟨m, hm⟩ := countMaterial_total (utf8Decode t0) hval {}
  have hp : ParseMaterial s = some m := by simp [ParseMaterial, hf, hm]
  have hst : SideToMove s = none := by
    rcases hside with hside | ⟨t1, rest2, hrest, hw, hb⟩
    · simp [SideToMove, hf, hside]
    · subst hrest
      simp [SideToMove, hf, hw, hb]
  have hbit : sideBit s = 0 := by simp [sideBit, hst]
  have hres := (materialShardID_packed s N hN1 hN2).1 m hp
  rw [hbit] at hres
  exact ⟨m, hp, hres⟩

/-- C10 counterexample: on input `Q x` (valid placement token `Q`, second
token `x` neither `w` nor `b`) with `N = 2^32 + 1`, the claimed result is
the key `1` modulo `N`, i.e. 1, but the code reduces modulo
`uint32(N) = 1` and returns 0. -/
theorem C10_counterexample :
    fieldsB [81, 32, 120] = [[81], [120]] ∧
    specMaterialKey { WhiteQueens := 1 } 0 % 4294967297 = 1 ∧
    materialShardID [81, 32, 120] 4294967297 = some 0 := by
  refine ⟨?_, ?_, ?_⟩
  · simp [fieldsB, takeTokenAux, utf8DecodeNext, isSpaceRune]
  · simp [specMaterialKey]
  · simp [materialShardID, ParseMaterial, SideToMove, fieldsB, takeTokenAux,
      utf8DecodeNext, isSpaceRune, utf8Decode, countMaterial]

/-- Witness for C10 at `Q x` with `N = 32768`. -/
theorem C10_witness :
    ∃ m, ParseMaterial [81, 32, 120] = some m ∧
      materialShardID [81, 32, 120] 32768 = some (specMaterialKey m 0 % 32768) := by
  have hf : fieldsB [81, 32, 120] = [[81], [120]] := by
    simp [fieldsB, takeTokenAux, utf8DecodeNext, isSpaceRune]
  have hdec : utf8Decode [81] = [81] := by simp [utf8Decode, utf8DecodeNext]
  refine C10_material_side_ignored [81, 32, 120] [81] [[120]] hf ?_ ?_ 32768
    (by norm_num) (by norm_num)
  · rw [hdec]
    intro r hr
    simp at hr
    omega
  · exact Or.inr ⟨[120], [], rfl, by simp, by simp⟩

/-- The `cachestrategy.Strategy` interface: `Get` and `Add` may mutate the
strategy state (LRU order), `Add` reports whether an entry was evicted. -/
structure CacheStrategy (σ : Type) where
  get : σ → Nat → Option Bytes × σ
  add : σ → Nat → Bytes → Bool × σ
  len : σ → Nat

/-- The in-memory cache backend (`memory.Backend`): a strategy plus hit and
miss counters. -/
structure MemBackend (σ : Type) where
  strat : σ
  hits : Nat
  misses : Nat

/-- `memory.Backend.Get`: delegate to the strategy and count a hit or a
miss accordingly. -/
def backendGet {σ : Type} (cs : CacheStrategy σ) (b : MemBackend σ) (id : Nat) :
    Option Bytes × MemBackend σ :=
  match cs.get b.strat id with
  | (some v, st) => (some v, { b with strat := st, hits := b.hits + 1 })
  | (none, st) => (none, { b with strat := st, misses := b.misses + 1 })

/-- `memory.Backend.Set`: delegate to the strategy's `Add`. -/
def backendSet {σ : Type} (cs : CacheStrategy σ) (b : MemBackend σ) (id : Nat)
    (data : Bytes) : MemBackend σ :=
  { b with strat := (cs.add b.strat id data).2 }

/-- `cachedstore.Store.ReadShard`: check the backend first; on a backend
miss delegate to the underlying store (which receives the cancellation
flag) and insert into the backend only on success.  Note there is no
cancellation check of its own. -/
def cachedReadShard {σ ε : Type} (cs : CacheStrategy σ)
    (underlying : Bool → Nat → Except ε Bytes) (cancelled : Bool)
    (b : MemBackend σ) (id : Nat) : Except ε Bytes × MemBackend σ :=
  match backendGet cs b id with
  | (some data, b1) => (.ok data, b1)
  | (none, b1) =>
    match underlying cancelled id with
    | .error e => (.error e, b1)
    | .ok data => (.ok data, backendSet cs b1 id data)

/-- C4 (amended): a backend hit returns the cached bytes and counts a hit;
a backend miss counts a miss immediately (inside `Backend.Get`, before the
delegated read); on a successful delegated read the bytes are inserted and
returned; on a failed one the error is propagated verbatim and nothing is
inserted — but the miss has already been counted, so misses count backend
misses, not only successful delegated reads. -/
theorem C4_cachedReadShard_spec {σ ε : Type} (cs : CacheStrategy σ)
    (underlying : Bool → Nat → Except ε Bytes) (c : Bool) (b : MemBackend σ) (id : Nat) :
    (∀ v st, cs.get b.strat id = (some v, st) →
      cachedReadShard cs underlying c b id =
        (.ok v, { strat := st, hits := b.hits + 1, misses := b.misses })) ∧
    (∀ st, cs.get b.strat id = (none, st) →
      (∀ data, underlying c id = .ok data →
        cachedReadShard cs underlying c b id =
          (.ok data, { strat := (cs.add st id data).2, hits := b.hits,
                       misses := b.misses + 1 })) ∧
      (∀ e, underlying c id = .error e →
        cachedReadShard cs underlying c b id =
          (.error e, { strat := st, hits := b.hits, misses := b.misses + 1 }))) := by
  constructor
  · intro v st hget
    simp [cachedReadShard, backendGet, hget]
  · intro st hget
    constructor
    · intro data hok
      simp [cachedReadShard, backendGet, backendSet, hget, hok]
    · intro e herr
      simp [cachedReadShard, backendGet, hget, herr]

/-- C4 counterexample: with an empty backend and a failing underlying
store, `ReadShard` propagates the error, yet the miss counter has already
been incremented from 0 to 1 — a cache miss is counted although no
successful delegated read happened. -/
theorem C4_counterexample :
    cachedReadShard (σ := Unit) (ε := Nat)
      ⟨fun s _ => (none, s), fun s _ _ => (false, s), fun _ => 0⟩
      (fun _ _ => Except.error 0) false ⟨(), 0, 0⟩ 7 =
      (Except.error 0, ⟨(), 0, 1⟩) := rfl

/-- Witness for C4: a backend miss followed by a successful read inserts
the bytes and counts the miss. -/
theorem C4_witness :
    cachedReadShard (σ := Unit) (ε := Nat)
      ⟨fun s _ => (none, s), fun s _ _ => (false, s), fun _ => 0⟩
      (fun _ _ => Except.ok [5]) false ⟨(), 0, 0⟩ 3 =
      (Except.ok [5], ⟨(), 0, 1⟩) :=
  ((C4_cachedReadShard_spec (σ := Unit) (ε := Nat)
      ⟨fun s _ => (none, s), fun s _ _ => (false, s), fun _ => 0⟩
      (fun _ _ => Except.ok [5]) false ⟨(), 0, 0⟩ 3).2 () rfl).1 [5] rfl

/-- Error kinds a store read can produce. -/
inductive StoreErr where
  | notFound
  | cancelled
  | ioErr
  | codecErr
  deriving DecidableEq, Repr

/-- `diskstore.Store.ReadShard` with I/O abstracted: the shard file's
compressed content (or absence) and the codec reader are parameters; the
cancellation token is checked before any I/O. -/
def diskReadShard (cancelled : Bool) (file : Option Bytes)
    (decompress : Bytes → Except StoreErr Bytes) : Except StoreErr Bytes :=
  if cancelled then .error .cancelled
  else
    match file with
    | none => .error .notFound
    | some compressed => decompress compressed

/-- `s3store.Store.ReadShard` with the object body abstracted; a missing
key (`NoSuchKey`) maps to not-found; cancellation is checked at entry. -/
def s3ReadShard (cancelled : Bool) (object : Option Bytes)
    (decompress : Bytes → Except StoreErr Bytes) : Except StoreErr Bytes :=
  if cancelled then .error .cancelled
  else
    match object with
    | none => .error .notFound
    | some body => decompress body

/-- `gcsstore.Store.ReadShard`, same shape as the S3 store: cancellation at
entry, `ErrObjectNotExist` mapped to not-found. -/
def gcsReadShard (cancelled : Bool) (object : Option Bytes)
    (decompress : Bytes → Except StoreErr Bytes) : Except StoreErr Bytes :=
  if cancelled then .error .cancelled
  else
    match object with
    | none => .error .notFound
    | some body => decompress body

/-- C7 (amended): the base stores (disk, S3, GCS) check the cancellation
token at entry and return the cancelled error before any I/O; the
cache-wrapping store has no check of its own: on a backend miss the
cancelled error comes from the delegated underlying read, while on a
backend hit it returns the cached bytes even under a cancelled token. -/
theorem C7_cancellation_checked :
    (∀ (file : Option Bytes) (d : Bytes → Except StoreErr Bytes),
      diskReadShard true file d = .error .cancelled) ∧
    (∀ (object : Option Bytes) (d : Bytes → Except StoreErr Bytes),
      s3ReadShard true object d = .error .cancelled) ∧
    (∀ (object : Option Bytes) (d : Bytes → Except StoreErr Bytes),
      gcsReadShard true object d = .error .cancelled) ∧
    (∀ (σ ε : Type) (cs : CacheStrategy σ) (u : Bool → Nat → Except ε Bytes)
      (b : MemBackend σ) (id : Nat) (st : σ) (e : ε),
      cs.get b.strat id = (none, st) → u true id = .error e →
      (cachedReadShard cs u true b id).1 = .error e) ∧
    (∀ (σ ε : Type) (cs : CacheStrategy σ) (u : Bool → Nat → Except ε Bytes)
      (b : MemBackend σ) (id : Nat) (st : σ) (v : Bytes),
      cs.get b.strat id = (some v, st) →
      (cachedReadShard cs u true b id).1 = .ok v) := by
  refine ⟨fun _ _ => rfl, fun _ _ => rfl, fun _ _ => rfl, ?_, ?_⟩
  · intro σ ε cs u b id st e hget herr
    simp [cachedReadShard, backendGet, hget, herr]
  · intro σ ε cs u b id st v hget
    simp [cachedReadShard, backendGet, hget]

/-- C7 counterexample: the cache-wrapping store, with shard 0 cached,
serves the cached bytes under an already-cancelled token instead of
returning the cancelled error — even when the underlying store would
report cancellation. -/
theorem C7_counterexample :
    cachedReadShard (σ := Unit) (ε := StoreErr)
      ⟨fun s _ => (some [7], s), fun s _ _ => (false, s), fun _ => 1⟩
      (fun c _ => if c then Except.error StoreErr.cancelled
                  else Except.error StoreErr.notFound)
      true ⟨(), 0, 0⟩ 0 =
      (Except.ok [7], ⟨(), 1, 0⟩) := rfl

/-- Witness for C7: a concrete cancelled disk read, and the cache wrapper
propagating a cancelled error on a backend miss. -/
theorem C7_witness :
    diskReadShard true (some [1, 2]) (fun b => Except.ok b) =
      Except.error StoreErr.cancelled ∧
    (cachedReadShard (σ := Unit) (ε := StoreErr)
      ⟨fun s _ => (none, s), fun s _ _ => (false, s), fun _ => 0⟩
      (fun c _ => if c then Except.error StoreErr.cancelled
                  else Except.error StoreErr.notFound)
      true ⟨(), 0, 0⟩ 4).1 = Except.error StoreErr.cancelled :=
  ⟨C7_cancellation_checked.1 (some [1, 2]) (fun b => Except.ok b),
    C7_cancellation_checked.2.2.2.1 Unit StoreErr
      ⟨fun s _ => (none, s), fun s _ _ => (false, s), fun _ => 0⟩
      (fun c _ => if c then Except.error StoreErr.cancelled
                  else Except.error StoreErr.notFound)
      ⟨(), 0, 0⟩ 4 () StoreErr.cancelled rfl rfl⟩

/-- Errors the client surfaces, with the store's errors of type `ε`;
`closingStore e` is the wrapped store-close error returned by `Close`. -/
inductive ClientErr (ε : Type) where
  | closed
  | closingStore (e : ε)
  | notFound
  | parseError
  | fetch (e : ε)
  deriving DecidableEq

/-- The client's mutable state: the atomic closed flag. -/
structure ClientState where
  closed : Bool
  deriving DecidableEq, Repr

/-- `Client.Close`: the compare-and-swap on the closed flag fails with
`Closed` on every call but the first; the first call flips the flag before
closing the store and returns the store's close error (wrapped) or nil. -/
def clientClose {ε : Type} (storeCloseResult : Option ε) (st : ClientState) :
    Option (ClientErr ε) × ClientState :=
  if st.closed then (some .closed, st)
  else
    match storeCloseResult with
    | some e => (some (.closingStore e), { closed := true })
    | none => (none, { closed := true })

/-- `Client.Lookup`: fail with `Closed` when the flag is set, otherwise
route to a shard, read it (store abstracted as a function) and search it. -/
def clientLookup {ε α : Type} (strategy : Bytes → Nat → Nat) (totalShards : Nat)
    (readShard : Nat → Except ε Bytes) (parse : Bytes → Option α)
    (st : ClientState) (fen : Bytes) : Except (ClientErr ε) α :=
  if st.closed then .error .closed
  else
    match readShard (strategy fen totalShards) with
    | .error e => .error (.fetch e)
    | .ok data =>
      match search parse data fen with
      | .notFound => .error .notFound
      | .parseError => .error .parseError
      | .found r => .ok r

/-- C5. The first `Close` of an open client returns nil or the store's
close error and sets the closed flag; every later `Close` returns `Closed`
and leaves the state closed; and once `Close` has run, every `Lookup`
returns `Closed`. -/
theorem C5_close_idempotent {ε α : Type} (storeCloseResult : Option ε)
    (st : ClientState) (hopen : st.closed = false) :
    ((clientClose storeCloseResult st).1 =
      match storeCloseResult with
      | some e => some (.closingStore e)
      | none => none) ∧
    (clientClose storeCloseResult st).2.closed = true ∧
    (∀ later : Option ε, clientClose later (clientClose storeCloseResult st).2 =
      (some .closed, (clientClose storeCloseResult st).2)) ∧
    (∀ (strategy : Bytes → Nat → Nat) (totalShards : Nat)
      (readShard : Nat → Except ε Bytes) (parse : Bytes → Option α) (fen : Bytes),
      clientLookup strategy totalShards readShard parse
        (clientClose storeCloseResult st).2 fen = .error .closed) := by
  have hstep : (clientClose storeCloseResult st).2 = { closed := true } := by
    cases storeCloseResult <;> simp [clientClose, hopen]
  refine ⟨?_, ?_, ?_, ?_⟩
  · cases storeCloseResult <;> simp [clientClose, hopen]
  · rw [hstep]
  · intro later
    rw [hstep]
    simp [clientClose]
  · intro strategy totalShards readShard parse fen
    rw [hstep]
    simp [clientLookup]

/-- Witness for C5 on a concrete open client. -/
theorem C5_witness :
    (clientClose (ε := Nat) none ⟨false⟩).1 = none ∧
    (clientClose (ε := Nat) none ⟨false⟩).2.closed = true ∧
    clientClose (some 3) (clientClose (ε := Nat) none ⟨false⟩).2 =
      (some .closed, (clientClose (ε := Nat) none ⟨false⟩).2) ∧
    clientLookup (ε := Nat) (fun _ _ => 0) 1 (fun _ => Except.ok []) (fun l => some l)
      (clientClose (ε := Nat) none ⟨false⟩).2 [] = .error .closed := by
  have h := C5_close_idempotent (ε := Nat) (α := Bytes) none ⟨false⟩ rfl
  exact ⟨h.1, h.2.1, h.2.2.1 (some 3), h.2.2.2 (fun _ _ => 0) 1 (fun _ => Except.ok [])
    (fun l => some l) []⟩

/-- The public PV shape: a centipawn score or a mate distance (the record
carries both options), plus the move line. -/
structure PV where
  Centipawns : Option Int
  Mate : Option Int
  Line : Bytes
  deriving DecidableEq

/-- Reduction of an integer to Go's `int64` range by two's-complement
wrap: the representative of `x` modulo `2^64` lying in
`[-2^63, 2^63)` (the two literals are `2^63` and `2^64`). -/
def wrap64 (x : Int) : Int :=
  (x + 9223372036854775808) % 18446744073709551616 - 9223372036854775808

/-- `PV.Score`: mate renders as `#` plus the distance; a missing score is
`?`; centipawns render as a sign, the whole pawns, and the two-digit
fraction.  `cp = -cp` is `int64` negation, which wraps at the minimum
value, so the negation passes through `wrap64`; Go's `/` and `%` truncate
toward zero, hence `Int.tdiv` and `Int.tmod` (`strconv.Itoa` is Go
standard library code, modelled by `toString` on `Int`). -/
def pvScore (pv : PV) : String :=
  match pv.Mate with
  | some m => "#" ++ toString m
  | none =>
    match pv.Centipawns with
    | none => "?"
    | some cp0 =>
      let sign := if cp0 < 0 then "-" else "+"
      let cp := if cp0 < 0 then wrap64 (-cp0) else cp0
      let whole := cp.tdiv 100
      let frac := cp.tmod 100
      if frac < 10 then sign ++ toString whole ++ ".0" ++ toString frac
      else sign ++ toString whole ++ "." ++ toString frac

/-- Two-decimal rendering of the fractional part, per the specification. -/
def pad2 (n : Int) : String := if n < 10 then "0" ++ toString n else toString n

theorem wrap64_eq {y : Int} (h1 : -9223372036854775808 ≤ y)
    (h2 : y < 9223372036854775808) : wrap64 y = y := by
  unfold wrap64
  rw [Int.emod_eq_of_lt (by omega) (by omega)]
  omega

theorem string_dot_zero_assoc (X t : String) :
    X ++ ".0" ++ t = X ++ "." ++ ("0" ++ t) := by
  rw [show (".0" : String) = "." ++ "0" from rfl, ← String.append_assoc X "." "0"]
  exact String.append_assoc (X ++ ".") "0" t

/-- C6 (amended). The seven literal score examples, the general mate
shape `#<n>`, and the general centipawn shape — sign, whole pawns, a dot
and the two-digit fraction (exactly two characters for every fraction
value) — the latter for every representable centipawn value above the
`int64` minimum: at `-2^63` itself the `cp = -cp` negation wraps and the
rendering degenerates (see the counterexample). -/
theorem C6_score_format :
    pvScore ⟨some 125, none, []⟩ = "+1.25" ∧
    pvScore ⟨some (-50), none, []⟩ = "-0.50" ∧
    pvScore ⟨some 0, none, []⟩ = "+0.00" ∧
    pvScore ⟨some 5, none, []⟩ = "+0.05" ∧
    pvScore ⟨none, some 3, []⟩ = "#3" ∧
    pvScore ⟨none, some (-5), []⟩ = "#-5" ∧
    pvScore ⟨none, none, []⟩ = "?" ∧
    (∀ (c : Option Int) (n : Int) (l : Bytes), pvScore ⟨c, some n, l⟩ = "#" ++ toString n) ∧
    (∀ (c : Int) (l : Bytes), -9223372036854775808 < c → c < 9223372036854775808 →
      pvScore ⟨some c, none, l⟩ =
        (if c < 0 then "-" else "+") ++ toString ((if c < 0 then -c else c).tdiv 100) ++
          "." ++ pad2 ((if c < 0 then -c else c).tmod 100)) ∧
    (∀ k : Int, 0 ≤ k → k < 100 → (pad2 k).length = 2) := by
  refine ⟨rfl, rfl, rfl, rfl, rfl, rfl, rfl, fun c n l => rfl, ?_, ?_⟩
  · intro c l hlo hhi
    simp only [pvScore, pad2]
    by_cases hneg : c < 0
    · have hwrap : wrap64 (-c) = -c := wrap64_eq (by omega) (by omega)
      simp only [if_pos hneg, hwrap]
      by_cases hfrac : Int.tmod (-c) 100 < 10
      · rw [if_pos hfrac, if_pos hfrac]
        exact string_dot_zero_assoc _ _
      · rw [if_neg hfrac, if_neg hfrac]
    · simp only [if_neg hneg]
      by_cases hfrac : Int.tmod c 100 < 10
      · rw [if_pos hfrac, if_pos hfrac]
        exact string_dot_zero_assoc _ _
      · rw [if_neg hfrac, if_neg hfrac]
  · intro k hk0 hk1
    unfold pad2
    interval_cases k <;> rfl

/-- C6 counterexample: at the minimum `int64` centipawn value the `cp =
-cp` negation wraps to itself, `whole` and `frac` stay negative, and the
score renders as `--92233720368547758.0-8` — not the sign-plus-two-decimal
shape the claim asserts for every centipawn value. -/
theorem C6_counterexample :
    pvScore ⟨some (-9223372036854775808), none, []⟩ = "--92233720368547758.0-8" ∧
    pvScore ⟨some (-9223372036854775808), none, []⟩ ≠
      (if (-9223372036854775808 : Int) < 0 then "-" else "+") ++
        toString ((if (-9223372036854775808 : Int) < 0 then
          -(-9223372036854775808 : Int) else -9223372036854775808).tdiv 100) ++
        "." ++ pad2 ((if (-9223372036854775808 : Int) < 0 then
          -(-9223372036854775808 : Int) else -9223372036854775808).tmod 100) := by
  constructor
  · decide
  · decide

/-- Witness for C6: the general centipawn clause at a concrete in-range
value, and the two-digit property at a concrete fraction. -/
theorem C6_witness :
    pvScore ⟨some 125, none, []⟩ = "+1.25" ∧
    (-9223372036854775808 < (125 : Int) ∧ (125 : Int) < 9223372036854775808 ∧
      pvScore ⟨some 125, none, []⟩ =
        (if (125 : Int) < 0 then "-" else "+") ++
          toString ((if (125 : Int) < 0 then -(125 : Int) else 125).tdiv 100) ++
          "." ++ pad2 ((if (125 : Int) < 0 then -(125 : Int) else 125).tmod 100)) ∧
    ((0 : Int) ≤ 5 ∧ (5 : Int) < 100 ∧ (pad2 5).length = 2) :=
  ⟨C6_score_format.1,
    ⟨by norm_num, by norm_num,
      C6_score_format.2.2.2.2.2.2.2.2.1 125 [] (by norm_num) (by norm_num)⟩,
    by norm_num, by norm_num,
    C6_score_format.2.2.2.2.2.2.2.2.2 5 (by norm_num) (by norm_num)⟩

/-- `builder.shardCollector`: in-memory record batch, its tracked byte
count, and the sorted spill runs already written to disk (file contents
kept in the state; disk writes are modelled as always succeeding). -/
structure GoCollector where
  shardID : Nat
  records : List Bytes
  memoryBytes : Int
  spilledRuns : List (List Bytes)
  spilledCount : Nat
  spillCount : Nat

/-- The single-threaded partition-phase state: all collectors plus the
memory accountant's `totalBytes` and `maxBytes` (`builder.memoryTracker`). -/
structure BuildSt where
  collectors : List GoCollector
  totalBytes : Int
  maxBytes : Int

/-- `sort.Slice` by extracted fingerprint, as `spillToDisk` does. -/
def sortByFEN (rs : List Bytes) : List Bytes :=
  rs.mergeSort (fun a b => lexLe (builderExtractFEN a) (builderExtractFEN b))

/-- `shardCollector.spillToDisk`: no-op on an empty batch; otherwise sort
the batch, append it as a new run, free the batch and report the freed
byte count (which the tracker subtracts). -/
def spillCollector (c : GoCollector) : GoCollector × Int :=
  if c.records.isEmpty then (c, 0)
  else
    ({ c with
        records := []
        memoryBytes := 0
        spilledRuns := c.spilledRuns ++ [sortByFEN c.records]
        spilledCount := c.spilledCount + c.records.length
        spillCount := c.spillCount + 1 }, c.memoryBytes)

/-- `memoryTracker.shouldSpill`: total strictly above the budget. -/
def trackerShouldSpill (st : BuildSt) : Bool := decide (st.maxBytes < st.totalBytes)

/-- The pick-largest scan of `spillUntilUnderLimit`: first collector whose
in-memory bytes strictly exceed every earlier candidate, skipping
collectors with no in-memory records. -/
def pickLoop : List GoCollector → Nat → Option Nat → Int → Option Nat
  | [], _, best, _ => best
  | c :: rest, i, best, bm =>
    if bm < c.memoryBytes ∧ ¬ c.records.isEmpty then
      pickLoop rest (i + 1) (some i) c.memoryBytes
    else pickLoop rest (i + 1) best bm

/-- The largest spillable collector (none exactly when the Go loop breaks:
`largest == nil || largestMem == 0`). -/
def pickLargest (st : BuildSt) : Option Nat := pickLoop st.collectors 0 none 0

/-- One spill applied to collector `i`: the tracker subtracts exactly the
collector's tracked bytes. -/
def applySpill (st : BuildSt) (i : Nat) : BuildSt :=
  match st.collectors[i]? with
  | none => st
  | some c =>
    { st with
        collectors := st.collectors.set i (spillCollector c).1
        totalBytes := st.totalBytes - (spillCollector c).2 }

/-- `memoryTracker.spillUntilUnderLimit`, its unbounded loop run with
explicit fuel (the callers pass enough fuel for the loop to reach its
natural exit). -/
def spillUntilUnderLimit : Nat → BuildSt → BuildSt
  | 0, st => st
  | fuel + 1, st =>
    if trackerShouldSpill st then
      match pickLargest st with
      | none => st
      | some i => spillUntilUnderLimit fuel (applySpill st i)
    else st

/-- The first half of `shardCollector.Add`: copy the record into the
batch and grow the collector's and the tracker's byte counts by the record
length plus the 24-byte slice-header overhead estimate. -/
def addRecord (st : BuildSt) (i : Nat) (record : Bytes) : BuildSt :=
  { st with
    collectors :=
      match st.collectors[i]? with
      | none => st.collectors
      | some c => st.collectors.set i
          { c with
            records := c.records ++ [record]
            memoryBytes := c.memoryBytes + ((record.length : Int) + 24) }
    totalBytes := st.totalBytes + ((record.length : Int) + 24) }

/-- `shardCollector.Add`: record the new bytes, then spill until back
under the limit when the tracker's check fires. -/
def collectorAdd (st : BuildSt) (i : Nat) (record : Bytes) : BuildSt :=
  if trackerShouldSpill (addRecord st i record) then
    spillUntilUnderLimit ((addRecord st i record).collectors.length + 1)
      (addRecord st i record)
  else addRecord st i record

/-- A collector's tracked bytes are the sum over its in-memory records of
length plus the per-record overhead. -/
def collectorInv (c : GoCollector) : Prop :=
  c.memoryBytes = (c.records.map (fun r => (r.length : Int) + 24)).sum

/-- The accountant's total equals the sum of all collectors' tracked
bytes, each of which is itself consistent. -/
def buildInv (st : BuildSt) : Prop :=
  st.totalBytes = (st.collectors.map (fun c => c.memoryBytes)).sum ∧
  ∀ c ∈ st.collectors, collectorInv c

/-- Number of collectors holding in-memory records. -/
def countNonempty (st : BuildSt) : Nat :=
  (st.collectors.filter (fun c => ! c.records.isEmpty)).length

theorem sum_map_set {α : Type} (f : α → Int) :
    ∀ (l : List α) (i : Nat) (x c : α), l[i]? = some c →
      ((l.set i x).map f).sum = (l.map f).sum - f c + f x := by
  intro l
  induction l with
  | nil => intro i x c h; simp at h
  | cons a rest ih =>
    intro i x c h
    cases i with
    | zero =>
      simp at h
      subst h
      simp [List.set]
      omega
    | succ j =>
      simp at h
      have ihj := ih j x c h
      simp only [List.set_cons_succ, List.map_cons, List.sum_cons, ihj]
      omega

theorem filter_length_set_decr {α : Type} (p : α → Bool) :
    ∀ (l : List α) (i : Nat) (x c : α), l[i]? = some c → p c = true → p x = false →
      ((l.set i x).filter p).length + 1 = (l.filter p).length := by
  intro l
  induction l with
  | nil => intro i x c h; simp at h
  | cons a rest ih =>
    intro i x c h hc hx
    cases i with
    | zero =>
      simp at h
      subst h
      simp [List.set, List.filter, hc, hx]
    | succ j =>
      simp at h
      have := ih j x c h hc hx
      simp only [List.set, List.filter_cons]
      cases hpa : p a <;> simp [this]

theorem sum_nonpos_of_all {l : List Int} (h : ∀ x ∈ l, x ≤ 0) : l.sum ≤ 0 := by
  induction l with
  | nil => simp
  | cons a rest ih =>
    simp only [List.sum_cons]
    have ha := h a (List.mem_cons_self a rest)
    have := ih (fun x hx => h x (List.mem_cons_of_mem a hx))
    omega

theorem collector_mem_nonneg {c : GoCollector} (h : collectorInv c) : 0 ≤ c.memoryBytes := by
  rw [h]
  apply List.sum_nonneg
  intro x hx
  simp only [List.mem_map] at hx
  obtain ⟨r, _, hr⟩ := hx
  omega

theorem collector_mem_zero_of_empty {c : GoCollector} (h : collectorInv c)
    (he : c.records.isEmpty = true) : c.memoryBytes = 0 := by
  rw [List.isEmpty_iff] at he
  rw [h, he]
  simp

theorem applySpill_total {st : BuildSt} {i : Nat} {c : GoCollector}
    (hget : st.collectors[i]? = some c) (hne : ¬ c.records.isEmpty = true) :
    (applySpill st i).totalBytes = st.totalBytes - c.memoryBytes ∧
    (applySpill st i).maxBytes = st.maxBytes ∧
    (applySpill st i).collectors = st.collectors.set i (spillCollector c).1 := by
  rw [Bool.not_eq_true] at hne
  simp [applySpill, hget, spillCollector, hne]

theorem applySpill_inv {st : BuildSt} {i : Nat} {c : GoCollector} (hInv : buildInv st)
    (hget : st.collectors[i]? = some c) (hne : ¬ c.records.isEmpty = true) :
    buildInv (applySpill st i) ∧
    countNonempty (applySpill st i) + 1 = countNonempty st := by
  rw [Bool.not_eq_true] at hne
  obtain ⟨htot, hall⟩ := hInv
  have hspill : spillCollector c =
      ({ c with
          records := []
          memoryBytes := 0
          spilledRuns := c.spilledRuns ++ [sortByFEN c.records]
          spilledCount := c.spilledCount + c.records.length
          spillCount := c.spillCount + 1 }, c.memoryBytes) := by
    simp [spillCollector, hne]
  refine ⟨⟨?_, ?_⟩, ?_⟩
  · simp only [applySpill, hget, hspill]
    rw [sum_map_set (fun c => c.memoryBytes) st.collectors i _ c hget]
    simp [htot]
  · intro x hx
    simp only [applySpill, hget, hspill] at hx
    rcases List.mem_or_eq_of_mem_set hx with hx | hx
    · exact hall x hx
    · subst hx
      simp [collectorInv]
  · simp only [countNonempty, applySpill, hget, hspill]
    exact filter_length_set_decr _ st.collectors i _ c hget (by simp [hne]) (by simp)

theorem pickLoop_spec (full : List GoCollector) :
    ∀ (cs seen : List GoCollector) (best : Option Nat) (bm : Int),
      full = seen ++ cs →
      0 ≤ bm →
      (∀ c ∈ seen, ¬ c.records.isEmpty = true → c.memoryBytes ≤ bm) →
      ((best = none ∧ bm = 0) ∨
        (∃ j c, best = some j ∧ full[j]? = some c ∧ ¬ c.records.isEmpty = true ∧
          c.memoryBytes = bm ∧ 0 < bm)) →
      (pickLoop cs seen.length best bm = none →
        ∀ c ∈ full, ¬ c.records.isEmpty = true → c.memoryBytes ≤ 0) ∧
      (∀ r, pickLoop cs seen.length best bm = some r →
        ∃ c, full[r]? = some c ∧ ¬ c.records.isEmpty = true ∧ 0 < c.memoryBytes ∧
          ∀ c' ∈ full, ¬ c'.records.isEmpty = true → c'.memoryBytes ≤ c.memoryBytes) := by
  intro cs
  induction cs with
  | nil =>
    intro seen best bm hfull hbm hseen hbest
    rcases hbest with ⟨hb, hbm0⟩ | ⟨j, c, hb, hget, hne, hmem, hpos⟩
    · subst hb
      constructor
      · intro _ c hc hne
        have : c ∈ seen := by simpa [hfull] using hc
        have := hseen c this hne
        omega
      · intro r hr
        simp [pickLoop] at hr
    · subst hb
      constructor
      · intro hr; simp [pickLoop] at hr
      · intro r hr
        simp [pickLoop] at hr
        subst hr
        refine ⟨c, hget, hne, by omega, ?_⟩
        intro c' hc' hne'
        have : c' ∈ seen := by simpa [hfull] using hc'
        have := hseen c' this hne'
        omega
  | cons c0 cs' ih =>
    intro seen best bm hfull hbm hseen hbest
    simp only [pickLoop]
    by_cases hpick : bm < c0.memoryBytes ∧ ¬ c0.records.isEmpty = true
    · rw [if_pos hpick]
      have hfull' : full = (seen ++ [c0]) ++ cs' := by
        rw [hfull, List.append_assoc]
        simp
      have hget0 : full[seen.length]? = some c0 := by
        rw [hfull]
        rw [List.getElem?_append_right (Nat.le_refl seen.length)]
        simp
      have hseen' : ∀ x ∈ seen ++ [c0], ¬ x.records.isEmpty = true →
          x.memoryBytes ≤ c0.memoryBytes := by
        intro x hx hne
        rcases List.mem_append.mp hx with hx | hx
        · have := hseen x hx hne
          omega
        · simp at hx
          subst hx
          exact Int.le_refl _
      have hlen : (seen ++ [c0]).length = seen.length + 1 := by simp
      have := ih (seen ++ [c0]) (some seen.length) c0.memoryBytes hfull'
        (by omega) hseen'
        (Or.inr ⟨seen.length, c0, rfl, hget0, hpick.2, rfl, by omega⟩)
      rw [hlen] at this
      exact this
    · rw [if_neg hpick]
      have hfull' : full = (seen ++ [c0]) ++ cs' := by
        rw [hfull, List.append_assoc]
        simp
      have hseen' : ∀ x ∈ seen ++ [c0], ¬ x.records.isEmpty = true →
          x.memoryBytes ≤ bm := by
        intro x hx hne
        rcases List.mem_append.mp hx with hx | hx
        · exact hseen x hx hne
        · simp at hx
          subst hx
          rcases (not_and_or.mp hpick) with h | h
          · omega
          · exact absurd hne h
      have hlen : (seen ++ [c0]).length = seen.length + 1 := by simp
      have := ih (seen ++ [c0]) best bm hfull' hbm hseen' hbest
      rw [hlen] at this
      exact this

theorem spillUntil_spec : ∀ (fuel : Nat) (st : BuildSt), buildInv st →
    0 ≤ st.maxBytes → countNonempty st < fuel →
    buildInv (spillUntilUnderLimit fuel st) ∧
    (spillUntilUnderLimit fuel st).maxBytes = st.maxBytes ∧
    (spillUntilUnderLimit fuel st).totalBytes ≤ st.maxBytes := by
  intro fuel
  induction fuel with
  | zero =>
    intro st _ _ hcount
    omega
  | succ fuel ih =>
    intro st hInv hmax hcount
    simp only [spillUntilUnderLimit]
    by_cases hsp : trackerShouldSpill st = true
    · rw [if_pos hsp]
      have htot : st.maxBytes < st.totalBytes := by
        simpa [trackerShouldSpill] using hsp
      cases hpick : pickLargest st with
      | none =>
        exfalso
        have hspec := (pickLoop_spec st.collectors st.collectors [] none 0
          (by simp) (Int.le_refl 0) (by simp) (Or.inl ⟨rfl, rfl⟩)).1 hpick
        have hall : ∀ x ∈ st.collectors.map (fun c => c.memoryBytes), x ≤ 0 := by
          intro x hx
          simp only [List.mem_map] at hx
          obtain ⟨c, hc, hcx⟩ := hx
          subst hcx
          by_cases hne : c.records.isEmpty = true
          · have := collector_mem_zero_of_empty (hInv.2 c hc) hne
            omega
          · exact hspec c hc hne
        have := sum_nonpos_of_all hall
        rw [← hInv.1] at this
        omega
      | some i =>
        obtain ⟨c, hget, hne, hpos, hmax'⟩ := (pickLoop_spec st.collectors st.collectors
          [] none 0 (by simp) (Int.le_refl 0) (by simp) (Or.inl ⟨rfl, rfl⟩)).2 i hpick
        have h1 := applySpill_total hget hne
        have hmaxeq := h1.2.1
        have h2 := applySpill_inv hInv hget hne
        have hcnt := h2.2
        have hrec := ih (applySpill st i) h2.1 (by omega) (by omega)
        dsimp only []
        refine ⟨hrec.1, ?_, ?_⟩
        · rw [hrec.2.1, h1.2.1]
        · have h3 := h1.2.1
          have h4 := hrec.2.2
          omega
    · rw [if_neg hsp]
      have : ¬ st.maxBytes < st.totalBytes := by
        simpa [trackerShouldSpill] using hsp
      exact ⟨hInv, rfl, by omega⟩

theorem addRecord_inv {st : BuildSt} {i : Nat} (r : Bytes) {c : GoCollector}
    (hInv : buildInv st) (hget : st.collectors[i]? = some c) :
    buildInv (addRecord st i r) ∧ (addRecord st i r).maxBytes = st.maxBytes := by
  refine ⟨⟨?_, ?_⟩, rfl⟩
  · simp only [addRecord, hget]
    rw [sum_map_set (fun c => c.memoryBytes) st.collectors i _ c hget]
    rw [← hInv.1]
    dsimp only []
    omega
  · intro x hx
    simp only [addRecord, hget] at hx
    rcases List.mem_or_eq_of_mem_set hx with hx | hx
    · exact hInv.2 x hx
    · subst hx
      have hc := hInv.2 c (List.getElem?_mem hget)
      simp only [collectorInv] at hc ⊢
      rw [List.map_append, List.sum_append]
      simp [hc]

theorem collectorAdd_spec (st : BuildSt) (i : Nat) (r : Bytes) (hInv : buildInv st)
    (hmax : 0 ≤ st.maxBytes) (hi : i < st.collectors.length) :
    buildInv (collectorAdd st i r) ∧
    (collectorAdd st i r).totalBytes ≤ st.maxBytes := by
  obtain ⟨c, hget⟩ : ∃ c, st.collectors[i]? = some c :=
    ⟨st.collectors[i], List.getElem?_eq_getElem hi⟩
  obtain ⟨hInv1, hmax1⟩ := addRecord_inv r hInv hget
  unfold collectorAdd
  by_cases hsp : trackerShouldSpill (addRecord st i r) = true
  · rw [if_pos hsp]
    have hcnt : countNonempty (addRecord st i r) <
        (addRecord st i r).collectors.length + 1 :=
      Nat.lt_succ_of_le (List.length_filter_le _ _)
    have hrec := spillUntil_spec ((addRecord st i r).collectors.length + 1)
      (addRecord st i r) hInv1 (by omega) hcnt
    exact ⟨hrec.1, by have := hrec.2.2; omega⟩
  · rw [if_neg hsp]
    have : ¬ (addRecord st i r).maxBytes < (addRecord st i r).totalBytes := by
      simpa [trackerShouldSpill] using hsp
    exact ⟨hInv1, by omega⟩

/-- C8. During the partition phase, a successful `Add` preserves the
accounting invariant (the tracker's total equals the sum of the
collectors' in-memory bytes, each record counted as its length plus the
fixed 24-byte overhead) and leaves the total at or below the configured
budget; the spill loop always targets a collector with the largest
in-memory footprint; and one spill subtracts exactly the spilled
collector's tracked bytes from the total. -/
theorem C8_memory_accounting (st : BuildSt) (i : Nat) (r : Bytes)
    (hInv : buildInv st) (hmax : 0 ≤ st.maxBytes) (hi : i < st.collectors.length) :
    (buildInv (collectorAdd st i r) ∧
      (collectorAdd st i r).totalBytes ≤ st.maxBytes) ∧
    (∀ (s : BuildSt) (j : Nat), buildInv s → pickLargest s = some j →
      ∃ c, s.collectors[j]? = some c ∧ ¬ c.records.isEmpty = true ∧
        ∀ c' ∈ s.collectors, c'.memoryBytes ≤ c.memoryBytes) ∧
    (∀ (s : BuildSt) (j : Nat) (c : GoCollector), s.collectors[j]? = some c →
      ¬ c.records.isEmpty = true →
      (applySpill s j).totalBytes = s.totalBytes - c.memoryBytes) := by
  refine ⟨collectorAdd_spec st i r hInv hmax hi, ?_, ?_⟩
  · intro s j hInvS hpick
    obtain ⟨c, hget, hne, hpos, hbound⟩ := (pickLoop_spec s.collectors s.collectors
      [] none 0 (by simp) (Int.le_refl 0) (by simp) (Or.inl ⟨rfl, rfl⟩)).2 j hpick
    refine ⟨c, hget, hne, ?_⟩
    intro c' hc'
    by_cases hne' : c'.records.isEmpty = true
    · have := collector_mem_zero_of_empty (hInvS.2 c' hc') hne'
      omega
    · exact hbound c' hc' hne'
  · intro s j c hget hne
    exact (applySpill_total hget hne).1

/-- Witness for C8 on a one-collector state within budget. -/
theorem C8_witness :
    (buildInv ⟨[⟨0, [], 0, [], 0, 0⟩], 0, 100⟩ ∧
      0 ≤ (100 : Int) ∧ 0 < ([⟨0, [], 0, [], 0, 0⟩] : List GoCollector).length) ∧
    (buildInv (collectorAdd ⟨[⟨0, [], 0, [], 0, 0⟩], 0, 100⟩ 0 [1, 2, 3]) ∧
      (collectorAdd ⟨[⟨0, [], 0, [], 0, 0⟩], 0, 100⟩ 0 [1, 2, 3]).totalBytes ≤ 100) := by
  have hInv : buildInv ⟨[⟨0, [], 0, [], 0, 0⟩], 0, 100⟩ := by
    constructor
    · simp [buildInv]
    · intro c hc
      simp at hc
      subst hc
      simp [collectorInv]
  exact ⟨⟨hInv, by norm_num, by simp⟩,
    (C8_memory_accounting ⟨[⟨0, [], 0, [], 0, 0⟩], 0, 100⟩ 0 [1, 2, 3] hInv
      (by norm_num) (by simp)).1⟩

end Stockpile
